import Mathlib

/-!
A shallow embedding of the ink! fungible-token contract in src/lib.rs
(module wasmerc20), together with proofs of its specification's claims.

The contract state is `Wasmerc20` (total_supply, balances mapping,
approval mapping, owner).  `ink_storage::Mapping` is modelled as an
association list with first-occurrence lookup and replace-first insert;
an absent entry reads as zero (`unwrap_or_default`).  `Balance` is u128:
values are naturals below `M = 2 ^ 128`, and the checked arithmetic of
the build traps (modelled as `none`) on overflow or underflow instead of
wrapping.  Each message is a function from the pre-state, the caller and
the arguments to `Option (Except Error Unit × Wasmerc20 × List Event)`:
`none` is a trap (the host reverts the call), `some (r, s, ev)` is a
normal return with result `r`, post-state `s` and emitted events `ev`.
-/

namespace Erc20

/-- Account identifiers (ink! `AccountId`), modelled as naturals with equality. -/
abbrev AccountId := Nat

/-- One more than the largest `Balance` (u128) value. -/
def M : Nat := 2 ^ 128

/-- Lookup in a `Mapping`, defaulting to zero on a missing key
(`self.balances.get(&who).unwrap_or_default()`). -/
def mget {κ : Type} [DecidableEq κ] : List (κ × Nat) → κ → Nat
  | [], _ => 0
  | (k, v) :: t, k1 => if k = k1 then v else mget t k1

/-- Insert into a `Mapping` (`Mapping::insert`): replace the first binding
of the key, or append a new binding. -/
def minsert {κ : Type} [DecidableEq κ] : List (κ × Nat) → κ → Nat → List (κ × Nat)
  | [], k1, v1 => [(k1, v1)]
  | (k, v) :: t, k1, v1 => if k = k1 then (k1, v1) :: t else (k, v) :: minsert t k1 v1

/-- Sum of all values stored in a `Mapping`. -/
def msum {κ : Type} (m : List (κ × Nat)) : Nat := (m.map Prod.snd).sum

/-- Modelled from the spec: the crate manifest fixing Rust's integer
overflow behaviour is not under src/; the spec requires that overflow of
the Amount type be "reported, not silently wrapped" (ink! contract builds
enable overflow-checks), so u128 addition traps (`none`) on overflow. -/
def addB (a b : Nat) : Option Nat := if a + b < M then some (a + b) else none

/-- Modelled from the spec: as for `addB`, u128 subtraction traps
(`none`) on underflow instead of wrapping. -/
def subB (a b : Nat) : Option Nat := if b ≤ a then some (a - b) else none

/-- The contract's error enum. -/
inductive Error where
  | InsufficientBalance
  | InsufficientApproval
  | IllegalManager
  deriving DecidableEq

/-- The contract's events (`Transfer` and `Approval`). -/
inductive Event where
  | Transfer (frm : Option AccountId) (dest : Option AccountId) (value : Nat)
  | Approval (owner : AccountId) (spender : AccountId) (value : Nat)
  deriving DecidableEq

/-- The `#[ink(storage)]` struct of the contract. -/
structure Wasmerc20 where
  total_supply : Nat
  balances : List (AccountId × Nat)
  approval : List ((AccountId × AccountId) × Nat)
  owner : AccountId
  deriving DecidableEq

/-- The outcome of one message call: `none` is a trap, otherwise the
`Result`, the post-state and the emitted events. -/
abbrev Outcome := Option (Except Error Unit × Wasmerc20 × List Event)

/-- Message `balance_of`: stored balance or zero. -/
def balance_of (s : Wasmerc20) (who : AccountId) : Nat := mget s.balances who

/-- Message `approval` (the query sharing its name with the storage
field): stored allowance of `(owner, spender)` or zero. -/
def approval_of (s : Wasmerc20) (owner spender : AccountId) : Nat :=
  mget s.approval (owner, spender)

/-- Constructor `new`: credits the whole initial supply to the caller,
who becomes `owner`; emits a mint-style `Transfer` event. -/
def new (caller : AccountId) (total_supply : Nat) : Wasmerc20 × List Event :=
  ({ total_supply := total_supply
     balances := minsert [] caller total_supply
     approval := []
     owner := caller },
   [Event.Transfer none (some caller) total_supply])

/-- The internal primitive `_transfer`: debit `frm` if present, credit
`to` if present, then emit the `Transfer` event.  It performs no
balance-sufficiency check of its own: an uncovered debit (or an
overflowing credit) traps in the checked subtraction, giving `none`. -/
def _transfer (s : Wasmerc20) (frm dest : Option AccountId) (value : Nat) :
    Option (Wasmerc20 × List Event) :=
  match (match frm with
    | some f =>
      match subB (balance_of s f) value with
      | none => none
      | some nb => some { s with balances := minsert s.balances f nb }
    | none => some s) with
  | none => none
  | some s1 =>
    match (match dest with
      | some t =>
        match addB (balance_of s1 t) value with
        | none => none
        | some nb => some { s1 with balances := minsert s1.balances t nb }
      | none => some s1) with
    | none => none
    | some s2 => some (s2, [Event.Transfer frm dest value])

/-- Message `transfer`: fails with `InsufficientBalance` if the caller's
balance is below `value`, otherwise moves `value` to `to` via `_transfer`. -/
def transfer (s : Wasmerc20) (caller dest : AccountId) (value : Nat) : Outcome :=
  let from_balance := balance_of s caller
  if from_balance < value then some (Except.error Error.InsufficientBalance, s, [])
  else
    match _transfer s (some caller) (some dest) value with
    | none => none
    | some (s2, ev) => some (Except.ok (), s2, ev)

/-- Message `transfer_from`: checks the caller's allowance from `frm`,
then `frm`'s balance, consumes the allowance, and moves the value. -/
def transfer_from (s : Wasmerc20) (caller frm dest : AccountId) (value : Nat) : Outcome :=
  let approval := approval_of s frm caller
  if approval < value then some (Except.error Error.InsufficientApproval, s, [])
  else
    let from_balance := balance_of s frm
    if from_balance < value then some (Except.error Error.InsufficientBalance, s, [])
    else
      match subB approval value with
      | none => none
      | some na =>
        let s1 := { s with approval := minsert s.approval (frm, caller) na }
        match _transfer s1 (some frm) (some dest) value with
        | none => none
        | some (s2, ev) => some (Except.ok (), s2, ev)

/-- Message `approve`: overwrite the allowance of `(caller, to)` with
`value` and emit the `Approval` event; always succeeds. -/
def approve (s : Wasmerc20) (caller dest : AccountId) (value : Nat) : Outcome :=
  some (Except.ok (),
        { s with approval := minsert s.approval (caller, dest) value },
        [Event.Approval caller dest value])

/-- Message `mint`: only `owner` may call; adds `value` to the total
supply and credits the caller via `_transfer(None, Some(caller))`. -/
def mint (s : Wasmerc20) (caller : AccountId) (value : Nat) : Outcome :=
  if caller ≠ s.owner then some (Except.error Error.IllegalManager, s, [])
  else
    match addB s.total_supply value with
    | none => none
    | some ts =>
      match _transfer { s with total_supply := ts } none (some caller) value with
      | none => none
      | some (s2, ev) => some (Except.ok (), s2, ev)

/-- Message `burn`: only `owner` may call and must hold at least `value`;
subtracts `value` from the total supply and debits the caller via
`_transfer(Some(caller), None)`. -/
def burn (s : Wasmerc20) (caller : AccountId) (value : Nat) : Outcome :=
  if caller ≠ s.owner then some (Except.error Error.IllegalManager, s, [])
  else
    let caller_balance := balance_of s caller
    if caller_balance < value then some (Except.error Error.InsufficientBalance, s, [])
    else
      match subB s.total_supply value with
      | none => none
      | some ts =>
        match _transfer { s with total_supply := ts } (some caller) none value with
        | none => none
        | some (s2, ev) => some (Except.ok (), s2, ev)

/-- The reachable ledger states: any state obtained from `new` by a
finite sequence of non-trapping message calls by arbitrary callers
(all `Balance` arguments are u128 values, hence below `M`). -/
inductive Reachable : Wasmerc20 → Prop where
  | base (caller ts : Nat) (h : ts < M) : Reachable (new caller ts).1
  | step_transfer {s s1 : Wasmerc20} {c t v : Nat} {r : Except Error Unit} {ev : List Event}
      (hs : Reachable s) (hv : v < M)
      (h : transfer s c t v = some (r, s1, ev)) : Reachable s1
  | step_transfer_from {s s1 : Wasmerc20} {c f t v : Nat} {r : Except Error Unit} {ev : List Event}
      (hs : Reachable s) (hv : v < M)
      (h : transfer_from s c f t v = some (r, s1, ev)) : Reachable s1
  | step_approve {s s1 : Wasmerc20} {c t v : Nat} {r : Except Error Unit} {ev : List Event}
      (hs : Reachable s) (hv : v < M)
      (h : approve s c t v = some (r, s1, ev)) : Reachable s1
  | step_mint {s s1 : Wasmerc20} {c v : Nat} {r : Except Error Unit} {ev : List Event}
      (hs : Reachable s) (hv : v < M)
      (h : mint s c v = some (r, s1, ev)) : Reachable s1
  | step_burn {s s1 : Wasmerc20} {c v : Nat} {r : Except Error Unit} {ev : List Event}
      (hs : Reachable s) (hv : v < M)
      (h : burn s c v = some (r, s1, ev)) : Reachable s1

/-! ## Mapping lemmas -/

theorem mget_minsert_self {κ : Type} [DecidableEq κ] (m : List (κ × Nat)) (k : κ) (v : Nat) :
    mget (minsert m k v) k = v := by
  induction m with
  | nil => simp [minsert, mget]
  | cons p t ih =>
    obtain ⟨k0, v0⟩ := p
    by_cases h : k0 = k
    · simp [minsert, mget, h]
    · simp [minsert, mget, h, ih]

theorem mget_minsert_ne {κ : Type} [DecidableEq κ] (m : List (κ × Nat)) (k k1 : κ) (v : Nat)
    (h : k1 ≠ k) : mget (minsert m k v) k1 = mget m k1 := by
  have h2 : ¬ (k = k1) := fun hh => h hh.symm
  induction m with
  | nil => simp [minsert, mget, h2]
  | cons p t ih =>
    obtain ⟨k0, v0⟩ := p
    by_cases h0 : k0 = k
    · subst h0
      simp [minsert, mget, h2]
    · by_cases h1 : k0 = k1 <;> simp [minsert, mget, h0, h1, h, ih]

theorem msum_cons {κ : Type} (k : κ) (v : Nat) (t : List (κ × Nat)) :
    msum ((k, v) :: t) = v + msum t := by
  simp [msum]

theorem msum_minsert {κ : Type} [DecidableEq κ] (m : List (κ × Nat)) (k : κ) (v : Nat) :
    msum (minsert m k v) + mget m k = msum m + v := by
  induction m with
  | nil => simp [minsert, mget, msum]
  | cons p t ih =>
    obtain ⟨k0, v0⟩ := p
    by_cases h : k0 = k
    · simp [minsert, mget, h, msum_cons]
      omega
    · simp [minsert, mget, h, msum_cons]
      omega

theorem mget_le_msum {κ : Type} [DecidableEq κ] (m : List (κ × Nat)) (k : κ) :
    mget m k ≤ msum m := by
  induction m with
  | nil => simp [mget, msum]
  | cons p t ih =>
    obtain ⟨k0, v0⟩ := p
    by_cases h : k0 = k <;> simp [mget, h, msum_cons] <;> omega

theorem mget_pair_le_msum {κ : Type} [DecidableEq κ] (m : List (κ × Nat)) (k k1 : κ)
    (h : k ≠ k1) : mget m k + mget m k1 ≤ msum m := by
  have hsym : ¬ (k1 = k) := fun hh => h hh.symm
  induction m with
  | nil => simp [mget, msum]
  | cons p t ih =>
    obtain ⟨k0, v0⟩ := p
    by_cases h0 : k0 = k
    · have := mget_le_msum t k1
      simp [mget, h0, h, msum_cons]
      omega
    · by_cases h1 : k0 = k1
      · have := mget_le_msum t k
        simp [mget, h0, h1, hsym, msum_cons]
        omega
      · simp [mget, h0, h1, msum_cons]
        omega

/-! ## Characterizations of the internal primitive -/

theorem _transfer_some_some (s : Wasmerc20) (f t v : Nat) (s2 : Wasmerc20) (ev : List Event) :
    _transfer s (some f) (some t) v = some (s2, ev) ↔
      v ≤ balance_of s f ∧
      mget (minsert s.balances f (balance_of s f - v)) t + v < M ∧
      s2 = { s with balances := (minsert (minsert s.balances f (balance_of s f - v)) t (mget (minsert s.balances f (balance_of s f - v)) t + v)) } ∧
      ev = [Event.Transfer (some f) (some t) v] := by
  by_cases h1 : v ≤ mget s.balances f
  · by_cases h2 : mget (minsert s.balances f (mget s.balances f - v)) t + v < M
    · simp [_transfer, subB, addB, balance_of, h1, h2, eq_comm]
    · simp [_transfer, subB, addB, balance_of, h1, h2]
  · simp [_transfer, subB, addB, balance_of, h1]

theorem _transfer_none_some (s : Wasmerc20) (t v : Nat) (s2 : Wasmerc20) (ev : List Event) :
    _transfer s none (some t) v = some (s2, ev) ↔
      balance_of s t + v < M ∧
      s2 = { s with balances := (minsert s.balances t (balance_of s t + v)) } ∧
      ev = [Event.Transfer none (some t) v] := by
  by_cases h2 : mget s.balances t + v < M
  · simp [_transfer, addB, balance_of, h2, eq_comm]
  · simp [_transfer, addB, balance_of, h2]

theorem _transfer_some_none (s : Wasmerc20) (f v : Nat) (s2 : Wasmerc20) (ev : List Event) :
    _transfer s (some f) none v = some (s2, ev) ↔
      v ≤ balance_of s f ∧
      s2 = { s with balances := (minsert s.balances f (balance_of s f - v)) } ∧
      ev = [Event.Transfer (some f) none v] := by
  by_cases h1 : v ≤ mget s.balances f
  · simp [_transfer, subB, balance_of, h1, eq_comm]
  · simp [_transfer, subB, balance_of, h1]

theorem _transfer_debit_insufficient (s : Wasmerc20) (f : Nat) (dest : Option Nat) (v : Nat)
    (h : balance_of s f < v) : _transfer s (some f) dest v = none := by
  unfold balance_of at h
  have h1 : ¬ v ≤ mget s.balances f := by omega
  simp [_transfer, subB, balance_of, h1]

/-! ## Characterizations of the public messages -/

theorem transfer_iff (s : Wasmerc20) (c d v : Nat) (r : Except Error Unit) (s1 : Wasmerc20)
    (ev : List Event) :
    transfer s c d v = some (r, s1, ev) ↔
      ((balance_of s c < v ∧ r = Except.error Error.InsufficientBalance ∧ s1 = s ∧ ev = []) ∨
       (v ≤ balance_of s c ∧ r = Except.ok () ∧
         _transfer s (some c) (some d) v = some (s1, ev))) := by
  by_cases hb : mget s.balances c < v
  · have hb2 : ¬ v ≤ mget s.balances c := by omega
    simp [transfer, balance_of, hb, hb2, eq_comm]
  · have hb2 : v ≤ mget s.balances c := by omega
    cases htr : _transfer s (some c) (some d) v with
    | none => simp [transfer, balance_of, hb, hb2, htr]
    | some p =>
      obtain ⟨a, b⟩ := p
      simp [transfer, balance_of, hb, hb2, htr, eq_comm]

theorem transfer_from_iff (s : Wasmerc20) (c f d v : Nat) (r : Except Error Unit)
    (s1 : Wasmerc20) (ev : List Event) :
    transfer_from s c f d v = some (r, s1, ev) ↔
      ((approval_of s f c < v ∧ r = Except.error Error.InsufficientApproval ∧ s1 = s ∧ ev = []) ∨
       (v ≤ approval_of s f c ∧ balance_of s f < v ∧
         r = Except.error Error.InsufficientBalance ∧ s1 = s ∧ ev = []) ∨
       (v ≤ approval_of s f c ∧ v ≤ balance_of s f ∧ r = Except.ok () ∧
         _transfer { s with approval := (minsert s.approval (f, c) (approval_of s f c - v)) }
           (some f) (some d) v = some (s1, ev))) := by
  by_cases ha : mget s.approval (f, c) < v
  · have ha2 : ¬ v ≤ mget s.approval (f, c) := by omega
    simp [transfer_from, approval_of, balance_of, ha, ha2, eq_comm]
  · have ha2 : v ≤ mget s.approval (f, c) := by omega
    by_cases hb : mget s.balances f < v
    · have hb2 : ¬ v ≤ mget s.balances f := by omega
      simp [transfer_from, subB, approval_of, balance_of, ha, ha2, hb, hb2, eq_comm]
    · have hb2 : v ≤ mget s.balances f := by omega
      cases htr : _transfer { s with approval := (minsert s.approval (f, c) (mget s.approval (f, c) - v)) } (some f) (some d) v with
      | none => simp [transfer_from, subB, approval_of, balance_of, ha, ha2, hb, hb2, htr]
      | some p =>
        obtain ⟨a, b⟩ := p
        simp [transfer_from, subB, approval_of, balance_of, ha, ha2, hb, hb2, htr, eq_comm]

theorem approve_eq (s : Wasmerc20) (c d v : Nat) :
    approve s c d v = some (Except.ok (),
      { s with approval := (minsert s.approval (c, d) v) }, [Event.Approval c d v]) := rfl

theorem mint_iff (s : Wasmerc20) (c v : Nat) (r : Except Error Unit) (s1 : Wasmerc20)
    (ev : List Event) :
    mint s c v = some (r, s1, ev) ↔
      ((c ≠ s.owner ∧ r = Except.error Error.IllegalManager ∧ s1 = s ∧ ev = []) ∨
       (c = s.owner ∧ s.total_supply + v < M ∧ r = Except.ok () ∧
         _transfer { s with total_supply := s.total_supply + v } none (some c) v
           = some (s1, ev))) := by
  by_cases hc : c = s.owner
  · subst hc
    by_cases hM : s.total_supply + v < M
    · cases htr : _transfer { s with total_supply := s.total_supply + v } none (some s.owner) v with
      | none =>
        simp [mint, addB, hM, htr]
      | some p =>
        obtain ⟨a, b⟩ := p
        simp [mint, addB, hM, htr, eq_comm]
        try tauto
    · simp [mint, addB, hM]
  · simp [mint, addB, hc, eq_comm]
    try tauto

theorem burn_iff (s : Wasmerc20) (c v : Nat) (r : Except Error Unit) (s1 : Wasmerc20)
    (ev : List Event) :
    burn s c v = some (r, s1, ev) ↔
      ((c ≠ s.owner ∧ r = Except.error Error.IllegalManager ∧ s1 = s ∧ ev = []) ∨
       (c = s.owner ∧ balance_of s c < v ∧
         r = Except.error Error.InsufficientBalance ∧ s1 = s ∧ ev = []) ∨
       (c = s.owner ∧ v ≤ balance_of s c ∧ v ≤ s.total_supply ∧ r = Except.ok () ∧
         _transfer { s with total_supply := s.total_supply - v } (some c) none v
           = some (s1, ev))) := by
  by_cases hc : c = s.owner
  · subst hc
    by_cases hb : mget s.balances s.owner < v
    · have hb2 : ¬ v ≤ mget s.balances s.owner := by omega
      simp [burn, subB, balance_of, hb, hb2, eq_comm]
      try tauto
    · have hb2 : v ≤ mget s.balances s.owner := by omega
      by_cases hM : v ≤ s.total_supply
      · cases htr : _transfer { s with total_supply := s.total_supply - v } (some s.owner) none v with
        | none =>
          simp [burn, subB, balance_of, hb, hb2, hM, htr]
        | some p =>
          obtain ⟨a, b⟩ := p
          simp [burn, subB, balance_of, hb, hb2, hM, htr, eq_comm]
          try tauto
      · simp [burn, subB, balance_of, hb, hb2, hM]
        try tauto
  · simp [burn, balance_of, hc, eq_comm]
    try tauto

/-! ## Effect of a debit-credit pair on balances and their sum -/

theorem mget_double_insert (m : List (Nat × Nat)) (f t a v : Nat) (hv : v ≤ mget m f) :
    mget (minsert (minsert m f (mget m f - v)) t (mget (minsert m f (mget m f - v)) t + v)) a
      = mget m a - (if a = f then v else 0) + (if a = t then v else 0) := by
  by_cases hat : a = t
  · subst hat
    rw [mget_minsert_self]
    by_cases haf : a = f
    · subst haf
      rw [mget_minsert_self]
      simp
    · rw [mget_minsert_ne _ _ _ _ haf]
      simp [haf]
  · rw [mget_minsert_ne _ _ _ _ hat]
    by_cases haf : a = f
    · subst haf
      rw [mget_minsert_self]
      simp [hat]
    · rw [mget_minsert_ne _ _ _ _ haf]
      simp [haf, hat]

theorem msum_double_insert (m : List (Nat × Nat)) (f t v : Nat) (hv : v ≤ mget m f) :
    msum (minsert (minsert m f (mget m f - v)) t (mget (minsert m f (mget m f - v)) t + v))
      = msum m := by
  have h1 := msum_minsert m f (mget m f - v)
  have h2 := msum_minsert (minsert m f (mget m f - v)) t
    (mget (minsert m f (mget m f - v)) t + v)
  have h3 := mget_le_msum m f
  omega

/-! ## Observable effects of each message -/

theorem transfer_ok (s : Wasmerc20) (c d v : Nat) (s1 : Wasmerc20) (ev : List Event)
    (h : transfer s c d v = some (Except.ok (), s1, ev)) :
    v ≤ balance_of s c ∧
    (∀ a, balance_of s1 a
        = balance_of s a - (if a = c then v else 0) + (if a = d then v else 0)) ∧
    msum s1.balances = msum s.balances ∧
    s1.total_supply = s.total_supply ∧ s1.approval = s.approval ∧ s1.owner = s.owner ∧
    ev = [Event.Transfer (some c) (some d) v] := by
  rcases (transfer_iff s c d v _ s1 ev).mp h with ⟨_, hre, _, _⟩ | ⟨hv, _, htr⟩
  · exact absurd hre (by simp)
  · rcases (_transfer_some_some s c d v s1 ev).mp htr with ⟨hv2, hfit, hs1, hev⟩
    subst hs1
    subst hev
    refine ⟨hv, ?_, ?_, rfl, rfl, rfl, rfl⟩
    · intro a
      simpa [balance_of] using mget_double_insert s.balances c d a v hv2
    · simpa [balance_of] using msum_double_insert s.balances c d v hv2

theorem transfer_err (s : Wasmerc20) (c d v : Nat) (e : Error) (s1 : Wasmerc20) (ev : List Event)
    (h : transfer s c d v = some (Except.error e, s1, ev)) :
    s1 = s ∧ ev = [] ∧ e = Error.InsufficientBalance ∧ balance_of s c < v := by
  rcases (transfer_iff s c d v _ s1 ev).mp h with ⟨hb, hre, hs, hev⟩ | ⟨_, hre, _⟩
  · injection hre with hre
    exact ⟨hs, hev, hre, hb⟩
  · exact absurd hre (by simp)

theorem transfer_from_ok (s : Wasmerc20) (c f d v : Nat) (s1 : Wasmerc20) (ev : List Event)
    (h : transfer_from s c f d v = some (Except.ok (), s1, ev)) :
    v ≤ approval_of s f c ∧ v ≤ balance_of s f ∧
    approval_of s1 f c + v = approval_of s f c ∧
    (∀ o p : AccountId, ¬ (o = f ∧ p = c) → approval_of s1 o p = approval_of s o p) ∧
    (∀ a, balance_of s1 a
        = balance_of s a - (if a = f then v else 0) + (if a = d then v else 0)) ∧
    msum s1.balances = msum s.balances ∧
    s1.total_supply = s.total_supply ∧ s1.owner = s.owner ∧
    ev = [Event.Transfer (some f) (some d) v] := by
  rcases (transfer_from_iff s c f d v _ s1 ev).mp h with
    ⟨_, hre, _, _⟩ | ⟨_, _, hre, _, _⟩ | ⟨ha, hb, _, htr⟩
  · exact absurd hre (by simp)
  · exact absurd hre (by simp)
  · rcases (_transfer_some_some _ f d v s1 ev).mp htr with ⟨hv2, hfit, hs1, hev⟩
    subst hs1
    subst hev
    have hbal : balance_of { s with approval := (minsert s.approval (f, c) (approval_of s f c - v)) } f = balance_of s f := rfl
    rw [hbal] at hv2
    refine ⟨ha, hb, ?_, ?_, ?_, ?_, rfl, rfl, rfl⟩
    · simp only [approval_of, balance_of]
      rw [mget_minsert_self]
      simp only [approval_of] at ha
      omega
    · intro o p hop
      have hne : (o, p) ≠ (f, c) := by
        simp only [ne_eq, Prod.mk.injEq]
        tauto
      simp only [approval_of, balance_of]
      rw [mget_minsert_ne _ _ _ _ hne]
    · intro a
      simpa [balance_of] using mget_double_insert s.balances f d a v hv2
    · simpa [balance_of] using msum_double_insert s.balances f d v hv2

theorem transfer_from_err (s : Wasmerc20) (c f d v : Nat) (e : Error) (s1 : Wasmerc20)
    (ev : List Event) (h : transfer_from s c f d v = some (Except.error e, s1, ev)) :
    s1 = s ∧ ev = [] := by
  rcases (transfer_from_iff s c f d v _ s1 ev).mp h with
    ⟨_, _, hs, hev⟩ | ⟨_, _, _, hs, hev⟩ | ⟨_, _, hre, _⟩
  · exact ⟨hs, hev⟩
  · exact ⟨hs, hev⟩
  · exact absurd hre (by simp)

theorem mint_ok (s : Wasmerc20) (c v : Nat) (s1 : Wasmerc20) (ev : List Event)
    (h : mint s c v = some (Except.ok (), s1, ev)) :
    c = s.owner ∧ s.total_supply + v < M ∧ balance_of s c + v < M ∧
    s1.total_supply = s.total_supply + v ∧
    balance_of s1 c = balance_of s c + v ∧
    (∀ a, a ≠ c → balance_of s1 a = balance_of s a) ∧
    msum s1.balances = msum s.balances + v ∧
    s1.approval = s.approval ∧ s1.owner = s.owner ∧
    ev = [Event.Transfer none (some c) v] := by
  rcases (mint_iff s c v _ s1 ev).mp h with ⟨_, hre, _, _⟩ | ⟨hc, hM, _, htr⟩
  · exact absurd hre (by simp)
  · rcases (_transfer_none_some _ c v s1 ev).mp htr with ⟨hfit, hs1, hev⟩
    subst hs1
    subst hev
    have hbal : balance_of { s with total_supply := s.total_supply + v } c = balance_of s c := rfl
    rw [hbal] at hfit
    have hsum := msum_minsert s.balances c (balance_of s c + v)
    have hle := mget_le_msum s.balances c
    refine ⟨hc, hM, hfit, rfl, ?_, ?_, ?_, rfl, rfl, rfl⟩
    · simp only [balance_of]
      exact mget_minsert_self s.balances c (balance_of s c + v)
    · intro a ha
      simp only [balance_of]
      exact mget_minsert_ne _ _ _ _ ha
    · simp only [balance_of] at hsum
      simp only [balance_of]
      omega

theorem mint_err (s : Wasmerc20) (c v : Nat) (e : Error) (s1 : Wasmerc20) (ev : List Event)
    (h : mint s c v = some (Except.error e, s1, ev)) :
    s1 = s ∧ ev = [] ∧ e = Error.IllegalManager ∧ c ≠ s.owner := by
  rcases (mint_iff s c v _ s1 ev).mp h with ⟨hc, hre, hs, hev⟩ | ⟨_, _, hre, _⟩
  · injection hre with hre
    exact ⟨hs, hev, hre, hc⟩
  · exact absurd hre (by simp)

theorem burn_ok (s : Wasmerc20) (c v : Nat) (s1 : Wasmerc20) (ev : List Event)
    (h : burn s c v = some (Except.ok (), s1, ev)) :
    c = s.owner ∧ v ≤ balance_of s c ∧ v ≤ s.total_supply ∧
    s1.total_supply + v = s.total_supply ∧
    balance_of s1 c + v = balance_of s c ∧
    (∀ a, a ≠ c → balance_of s1 a = balance_of s a) ∧
    msum s1.balances + v = msum s.balances ∧
    s1.approval = s.approval ∧ s1.owner = s.owner ∧
    ev = [Event.Transfer (some c) none v] := by
  rcases (burn_iff s c v _ s1 ev).mp h with
    ⟨_, hre, _, _⟩ | ⟨_, _, hre, _, _⟩ | ⟨hc, hb, hM, _, htr⟩
  · exact absurd hre (by simp)
  · exact absurd hre (by simp)
  · rcases (_transfer_some_none _ c v s1 ev).mp htr with ⟨hv2, hs1, hev⟩
    subst hs1
    subst hev
    have hbal : balance_of { s with total_supply := s.total_supply - v } c = balance_of s c := rfl
    rw [hbal] at hv2
    have hsum := msum_minsert s.balances c (balance_of s c - v)
    have hle := mget_le_msum s.balances c
    refine ⟨hc, hb, hM, ?_, ?_, ?_, ?_, rfl, rfl, rfl⟩
    · show s.total_supply - v + v = s.total_supply
      omega
    · simp only [balance_of]
      rw [mget_minsert_self]
      simp only [balance_of] at hv2
      omega
    · intro a ha
      simp only [balance_of]
      exact mget_minsert_ne _ _ _ _ ha
    · simp only [balance_of] at hsum hv2
      simp only [balance_of]
      omega

theorem burn_err (s : Wasmerc20) (c v : Nat) (e : Error) (s1 : Wasmerc20) (ev : List Event)
    (h : burn s c v = some (Except.error e, s1, ev)) :
    s1 = s ∧ ev = [] := by
  rcases (burn_iff s c v _ s1 ev).mp h with
    ⟨_, _, hs, hev⟩ | ⟨_, _, _, hs, hev⟩ | ⟨_, _, _, hre, _⟩
  · exact ⟨hs, hev⟩
  · exact ⟨hs, hev⟩
  · exact absurd hre (by simp)

/-! ## Constructing successful calls -/

theorem transfer_ok_eq (s : Wasmerc20) (c d v : Nat) (h1 : v ≤ balance_of s c)
    (h2 : mget (minsert s.balances c (balance_of s c - v)) d + v < M) :
    transfer s c d v = some (Except.ok (),
      { s with balances := (minsert (minsert s.balances c (balance_of s c - v)) d (mget (minsert s.balances c (balance_of s c - v)) d + v)) },
      [Event.Transfer (some c) (some d) v]) := by
  apply (transfer_iff s c d v _ _ _).mpr
  right
  exact ⟨h1, rfl, (_transfer_some_some s c d v _ _).mpr ⟨h1, h2, rfl, rfl⟩⟩

theorem transfer_from_ok_eq (s : Wasmerc20) (c f d v : Nat) (ha : v ≤ approval_of s f c)
    (hb : v ≤ balance_of s f)
    (h2 : mget (minsert s.balances f (balance_of s f - v)) d + v < M) :
    transfer_from s c f d v = some (Except.ok (),
      { s with approval := (minsert s.approval (f, c) (approval_of s f c - v)),
               balances := (minsert (minsert s.balances f (balance_of s f - v)) d (mget (minsert s.balances f (balance_of s f - v)) d + v)) },
      [Event.Transfer (some f) (some d) v]) := by
  apply (transfer_from_iff s c f d v _ _ _).mpr
  right
  right
  exact ⟨ha, hb, rfl, (_transfer_some_some _ f d v _ _).mpr ⟨hb, h2, rfl, rfl⟩⟩

theorem mint_ok_eq (s : Wasmerc20) (c v : Nat) (hc : c = s.owner)
    (hM : s.total_supply + v < M) (hB : balance_of s c + v < M) :
    mint s c v = some (Except.ok (),
      { s with total_supply := s.total_supply + v,
               balances := (minsert s.balances c (balance_of s c + v)) },
      [Event.Transfer none (some c) v]) := by
  apply (mint_iff s c v _ _ _).mpr
  right
  exact ⟨hc, hM, rfl, (_transfer_none_some _ c v _ _).mpr ⟨hB, rfl, rfl⟩⟩

/-! ## The conservation invariant on reachable states -/

theorem reachable_inv {s : Wasmerc20} (h : Reachable s) :
    s.total_supply = msum s.balances ∧ s.total_supply < M := by
  induction h with
  | base caller ts hts =>
    refine ⟨?_, hts⟩
    simp [new, minsert, msum]
  | step_transfer hs hv htr ih =>
    rename_i s0 s1 c t v r ev
    rcases r with e | u
    · obtain ⟨hss, _, _, _⟩ := transfer_err s0 c t v e s1 ev htr
      rw [hss]
      exact ih
    · cases u
      obtain ⟨_, _, hsum, htot, _, _, _⟩ := transfer_ok s0 c t v s1 ev htr
      rw [htot, hsum]
      exact ih
  | step_transfer_from hs hv htr ih =>
    rename_i s0 s1 c f t v r ev
    rcases r with e | u
    · obtain ⟨hss, _⟩ := transfer_from_err s0 c f t v e s1 ev htr
      rw [hss]
      exact ih
    · cases u
      obtain ⟨_, _, _, _, _, hsum, htot, _, _⟩ := transfer_from_ok s0 c f t v s1 ev htr
      rw [htot, hsum]
      exact ih
  | step_approve hs hv htr ih =>
    rename_i s0 s1 c t v r ev
    rw [approve_eq] at htr
    simp only [Option.some.injEq, Prod.mk.injEq] at htr
    obtain ⟨-, hX, -⟩ := htr
    rw [← hX]
    exact ih
  | step_mint hs hv htr ih =>
    rename_i s0 s1 c v r ev
    rcases r with e | u
    · obtain ⟨hss, _, _, _⟩ := mint_err s0 c v e s1 ev htr
      rw [hss]
      exact ih
    · cases u
      obtain ⟨_, hM, _, htot, _, _, hsum, _, _, _⟩ := mint_ok s0 c v s1 ev htr
      constructor
      · rw [htot, hsum, ih.1]
      · omega
  | step_burn hs hv htr ih =>
    rename_i s0 s1 c v r ev
    rcases r with e | u
    · obtain ⟨hss, _⟩ := burn_err s0 c v e s1 ev htr
      rw [hss]
      exact ih
    · cases u
      obtain ⟨_, _, hvt, htot, _, _, hsum, _, _, _⟩ := burn_ok s0 c v s1 ev htr
      obtain ⟨ih1, ih2⟩ := ih
      constructor
      · omega
      · omega

/-! ## Overflow traps of mint -/

theorem mint_total_overflow_trap (s : Wasmerc20) (c v : Nat) (hc : c = s.owner)
    (hM : M ≤ s.total_supply + v) : mint s c v = none := by
  subst hc
  have h2 : ¬ (s.total_supply + v < M) := by omega
  simp [mint, addB, h2]

theorem mint_credit_overflow_trap (s : Wasmerc20) (c v : Nat) (hc : c = s.owner)
    (hM : s.total_supply + v < M) (hB : M ≤ balance_of s c + v) : mint s c v = none := by
  subst hc
  simp only [balance_of] at hB
  have hB2 : ¬ (mget s.balances s.owner + v < M) := by omega
  simp [mint, addB, _transfer, balance_of, hM, hB2]

/-! ## The claims -/

/-- C1: for every reachable state of the ledger, total_supply equals the sum
of all stored balances; no operation other than mint and burn changes
total_supply; and a successful mint or burn changes total_supply and exactly
one balance (the caller's) by the same delta. -/
theorem C1_conservation :
    (∀ s : Wasmerc20, Reachable s → s.total_supply = msum s.balances) ∧
    (∀ (s : Wasmerc20) (c d v : Nat) (r : Except Error Unit) (s1 : Wasmerc20) (ev : List Event),
      transfer s c d v = some (r, s1, ev) → s1.total_supply = s.total_supply) ∧
    (∀ (s : Wasmerc20) (c d v : Nat) (r : Except Error Unit) (s1 : Wasmerc20) (ev : List Event),
      approve s c d v = some (r, s1, ev) → s1.total_supply = s.total_supply) ∧
    (∀ (s : Wasmerc20) (c f d v : Nat) (r : Except Error Unit) (s1 : Wasmerc20) (ev : List Event),
      transfer_from s c f d v = some (r, s1, ev) → s1.total_supply = s.total_supply) ∧
    (∀ (s : Wasmerc20) (c v : Nat) (s1 : Wasmerc20) (ev : List Event),
      mint s c v = some (Except.ok (), s1, ev) →
        s1.total_supply = s.total_supply + v ∧
        balance_of s1 c = balance_of s c + v ∧
        ∀ a, a ≠ c → balance_of s1 a = balance_of s a) ∧
    (∀ (s : Wasmerc20) (c v : Nat) (s1 : Wasmerc20) (ev : List Event),
      burn s c v = some (Except.ok (), s1, ev) →
        s1.total_supply + v = s.total_supply ∧
        balance_of s1 c + v = balance_of s c ∧
        ∀ a, a ≠ c → balance_of s1 a = balance_of s a) := by
  refine ⟨fun s hs => (reachable_inv hs).1, ?_, ?_, ?_, ?_, ?_⟩
  · intro s c d v r s1 ev h
    rcases r with e | u
    · rw [(transfer_err s c d v e s1 ev h).1]
    · cases u
      exact (transfer_ok s c d v s1 ev h).2.2.2.1
  · intro s c d v r s1 ev h
    rw [approve_eq] at h
    simp only [Option.some.injEq, Prod.mk.injEq] at h
    obtain ⟨-, hX, -⟩ := h
    rw [← hX]
  · intro s c f d v r s1 ev h
    rcases r with e | u
    · rw [(transfer_from_err s c f d v e s1 ev h).1]
    · cases u
      exact (transfer_from_ok s c f d v s1 ev h).2.2.2.2.2.2.1
  · intro s c v s1 ev h
    obtain ⟨-, -, -, htot, hbc, hother, -, -, -, -⟩ := mint_ok s c v s1 ev h
    exact ⟨htot, hbc, hother⟩
  · intro s c v s1 ev h
    obtain ⟨-, -, -, htot, hbc, hother, -, -, -, -⟩ := burn_ok s c v s1 ev h
    exact ⟨htot, hbc, hother⟩

/-- Witness for C1: the state constructed by new(5) is reachable and satisfies
the conservation equation. -/
theorem C1_conservation_witness :
    Reachable (new 0 5).1 ∧ (new 0 5).1.total_supply = msum (new 0 5).1.balances := by
  have hr : Reachable (new 0 5).1 := Reachable.base 0 5 (by norm_num [M])
  exact ⟨hr, C1_conservation.1 (new 0 5).1 hr⟩

/-- C2: whenever transfer, transfer_from, mint or burn returns an Err result,
the post-state is identical to the pre-state (so total_supply, every balance
and every allowance are unchanged: no partial application). -/
theorem C2_err_leaves_state_unchanged :
    (∀ (s : Wasmerc20) (c d v : Nat) (e : Error) (s1 : Wasmerc20) (ev : List Event),
      transfer s c d v = some (Except.error e, s1, ev) → s1 = s) ∧
    (∀ (s : Wasmerc20) (c f d v : Nat) (e : Error) (s1 : Wasmerc20) (ev : List Event),
      transfer_from s c f d v = some (Except.error e, s1, ev) → s1 = s) ∧
    (∀ (s : Wasmerc20) (c v : Nat) (e : Error) (s1 : Wasmerc20) (ev : List Event),
      mint s c v = some (Except.error e, s1, ev) → s1 = s) ∧
    (∀ (s : Wasmerc20) (c v : Nat) (e : Error) (s1 : Wasmerc20) (ev : List Event),
      burn s c v = some (Except.error e, s1, ev) → s1 = s) :=
  ⟨fun s c d v e s1 ev h => (transfer_err s c d v e s1 ev h).1,
   fun s c f d v e s1 ev h => (transfer_from_err s c f d v e s1 ev h).1,
   fun s c v e s1 ev h => (mint_err s c v e s1 ev h).1,
   fun s c v e s1 ev h => (burn_err s c v e s1 ev h).1⟩

/-- Witness for C2: a failing transfer out of an empty account leaves the
freshly constructed state unchanged. -/
theorem C2_err_leaves_state_unchanged_witness :
    transfer (new 0 5).1 1 2 7
      = some (Except.error Error.InsufficientBalance, (new 0 5).1, []) ∧
    (new 0 5).1 = (new 0 5).1 := by
  have h : transfer (new 0 5).1 1 2 7
      = some (Except.error Error.InsufficientBalance, (new 0 5).1, []) := rfl
  exact ⟨h, C2_err_leaves_state_unchanged.1 _ 1 2 7 _ _ _ h⟩

/-- C3: overflow of the Amount type is reported (the call traps), never
silently wrapped: mint traps when total_supply + value or the credited
balance + value would overflow u128; a successful mint changes total_supply
and the credited balance by the exact mathematical sum; and a successful
credit in _transfer stores the exact mathematical sum, which is in range. -/
theorem C3_overflow_reported :
    (∀ (s : Wasmerc20) (c v : Nat), c = s.owner → M ≤ s.total_supply + v →
      mint s c v = none) ∧
    (∀ (s : Wasmerc20) (c v : Nat), c = s.owner → s.total_supply + v < M →
      M ≤ balance_of s c + v → mint s c v = none) ∧
    (∀ (s : Wasmerc20) (c v : Nat) (s1 : Wasmerc20) (ev : List Event),
      mint s c v = some (Except.ok (), s1, ev) →
        s1.total_supply = s.total_supply + v ∧ balance_of s1 c = balance_of s c + v) ∧
    (∀ (s : Wasmerc20) (f t v : Nat) (s1 : Wasmerc20) (ev : List Event),
      _transfer s (some f) (some t) v = some (s1, ev) → t ≠ f →
        balance_of s1 t = balance_of s t + v ∧ balance_of s t + v < M) := by
  refine ⟨?_, ?_, ?_, ?_⟩
  · intro s c v hc hM
    exact mint_total_overflow_trap s c v hc hM
  · intro s c v hc hM hB
    exact mint_credit_overflow_trap s c v hc hM hB
  · intro s c v s1 ev h
    obtain ⟨-, -, -, htot, hbc, -, -, -, -, -⟩ := mint_ok s c v s1 ev h
    exact ⟨htot, hbc⟩
  · intro s f t v s1 ev h htf
    rcases (_transfer_some_some s f t v s1 ev).mp h with ⟨hv, hfit, hs1, -⟩
    subst hs1
    have hgt : mget (minsert s.balances f (balance_of s f - v)) t = mget s.balances t :=
      mget_minsert_ne _ _ _ _ htf
    constructor
    · show mget (minsert (minsert s.balances f (balance_of s f - v)) t (mget (minsert s.balances f (balance_of s f - v)) t + v)) t = balance_of s t + v
      rw [mget_minsert_self, hgt]
      rfl
    · rw [hgt] at hfit
      exact hfit

/-- Witness for C3: with total_supply at the u128 maximum, an owner mint of 1
overflows and traps instead of wrapping. -/
theorem C3_overflow_reported_witness :
    0 = (new 0 (M - 1)).1.owner ∧ mint (new 0 (M - 1)).1 0 1 = none := by
  have h1 : (0 : Nat) = (new 0 (M - 1)).1.owner := rfl
  have h2 : M ≤ (new 0 (M - 1)).1.total_supply + 1 := by
    show M ≤ M - 1 + 1
    have : 0 < M := by norm_num [M]
    omega
  exact ⟨h1, C3_overflow_reported.1 _ 0 1 h1 h2⟩

/-- C4: transfer_from checks its preconditions in order against the pre-state:
insufficient allowance of (from, caller) yields InsufficientApproval with the
state unchanged; otherwise insufficient balance of from yields
InsufficientBalance; and on any reachable pre-state it succeeds exactly when
both preconditions hold. -/
theorem C4_transfer_from_preconditions (s : Wasmerc20) (hr : Reachable s) (c f d v : Nat) :
    (approval_of s f c < v →
      transfer_from s c f d v = some (Except.error Error.InsufficientApproval, s, [])) ∧
    (v ≤ approval_of s f c → balance_of s f < v →
      transfer_from s c f d v = some (Except.error Error.InsufficientBalance, s, [])) ∧
    ((∃ s1 ev, transfer_from s c f d v = some (Except.ok (), s1, ev)) ↔
      (v ≤ approval_of s f c ∧ v ≤ balance_of s f)) := by
  refine ⟨?_, ?_, ?_⟩
  · intro h
    simp only [approval_of] at h
    simp [transfer_from, approval_of, h]
  · intro h1 h2
    simp only [approval_of] at h1
    simp only [balance_of] at h2
    have h1b : ¬ (mget s.approval (f, c) < v) := by omega
    simp [transfer_from, approval_of, balance_of, h1b, h2]
  · constructor
    · rintro ⟨s1, ev, h⟩
      have hh := transfer_from_ok s c f d v s1 ev h
      exact ⟨hh.1, hh.2.1⟩
    · rintro ⟨ha, hb⟩
      obtain ⟨hinv, hM⟩ := reachable_inv hr
      have hfit : mget (minsert s.balances f (balance_of s f - v)) d + v < M := by
        by_cases hdf : d = f
        · subst hdf
          rw [mget_minsert_self]
          have hle := mget_le_msum s.balances d
          simp only [balance_of] at hb ⊢
          omega
        · rw [mget_minsert_ne _ _ _ _ hdf]
          have hp := mget_pair_le_msum s.balances d f hdf
          simp only [balance_of] at hb
          omega
      exact ⟨_, _, transfer_from_ok_eq s c f d v ha hb hfit⟩

/-- Witness for C4: on the reachable state with balance 5 for account 0 and
allowance 4 for spender 2, the success criterion is exercised concretely. -/
theorem C4_transfer_from_preconditions_witness :
    (∃ s1 ev, transfer_from (⟨5, [(0, 5)], [((0, 2), 4)], 0⟩ : Wasmerc20) 2 0 3 3
        = some (Except.ok (), s1, ev)) ↔
      (3 ≤ approval_of (⟨5, [(0, 5)], [((0, 2), 4)], 0⟩ : Wasmerc20) 0 2 ∧
       3 ≤ balance_of (⟨5, [(0, 5)], [((0, 2), 4)], 0⟩ : Wasmerc20) 0) := by
  have hr0 : Reachable (new 0 5).1 := Reachable.base 0 5 (by norm_num [M])
  have happ : approve (new 0 5).1 0 2 4
      = some (Except.ok (), (⟨5, [(0, 5)], [((0, 2), 4)], 0⟩ : Wasmerc20),
          [Event.Approval 0 2 4]) := rfl
  have hr1 : Reachable (⟨5, [(0, 5)], [((0, 2), 4)], 0⟩ : Wasmerc20) :=
    Reachable.step_approve hr0 (by norm_num [M]) happ
  exact (C4_transfer_from_preconditions _ hr1 2 0 3 3).2.2

/-- C5: on every successful transfer_from, the allowance of (from, caller) is
consumed by exactly value (never truncated below zero, as the check
guarantees value is at most the allowance), from is debited by value and to
is credited by value; the formula composes the debit and the credit, so the
degenerate from = to case nets to no change. -/
theorem C5_transfer_from_success_effects (s : Wasmerc20) (c f d v : Nat)
    (s1 : Wasmerc20) (ev : List Event)
    (h : transfer_from s c f d v = some (Except.ok (), s1, ev)) :
    v ≤ approval_of s f c ∧
    approval_of s1 f c + v = approval_of s f c ∧
    (∀ a, balance_of s1 a
      = balance_of s a - (if a = f then v else 0) + (if a = d then v else 0)) := by
  obtain ⟨ha, -, happ, -, hbal, -, -, -, -⟩ := transfer_from_ok s c f d v s1 ev h
  exact ⟨ha, happ, hbal⟩

/-- Witness for C5: the concrete delegated transfer of 3 out of an allowance
of 4 leaves allowance 1. -/
theorem C5_transfer_from_success_effects_witness :
    transfer_from (⟨5, [(0, 5)], [((0, 2), 4)], 0⟩ : Wasmerc20) 2 0 3 3
      = some (Except.ok (), (⟨5, [(0, 2), (3, 3)], [((0, 2), 1)], 0⟩ : Wasmerc20),
          [Event.Transfer (some 0) (some 3) 3]) ∧
    approval_of (⟨5, [(0, 2), (3, 3)], [((0, 2), 1)], 0⟩ : Wasmerc20) 0 2 + 3
      = approval_of (⟨5, [(0, 5)], [((0, 2), 4)], 0⟩ : Wasmerc20) 0 2 := by
  have h : transfer_from (⟨5, [(0, 5)], [((0, 2), 4)], 0⟩ : Wasmerc20) 2 0 3 3
      = some (Except.ok (), (⟨5, [(0, 2), (3, 3)], [((0, 2), 1)], 0⟩ : Wasmerc20),
          [Event.Transfer (some 0) (some 3) 3]) := rfl
  exact ⟨h, (C5_transfer_from_success_effects _ 2 0 3 3 _ _ h).2.1⟩

/-- Counterexample to C6 as frozen: with caller = owner, mint does not always
succeed — at u128-maximal total_supply an owner mint of 1 overflows and the
call traps (returns no Ok result and does not wrap). -/
theorem C6_mint_counterexample :
    0 = (new 0 (M - 1)).1.owner ∧ mint (new 0 (M - 1)).1 0 1 = none := by
  constructor
  · rfl
  · have h2 : M ≤ (new 0 (M - 1)).1.total_supply + 1 := by
      show M ≤ M - 1 + 1
      have : 0 < M := by norm_num [M]
      omega
    exact mint_total_overflow_trap _ 0 1 rfl h2

/-- C6 amended: mint by a non-owner fails with IllegalManager and leaves the
state unchanged; mint by the owner succeeds provided neither the new
total_supply nor the credited balance overflows u128 (otherwise the call
traps, see the counterexample), and then increases total_supply by value,
credits the caller's balance by value, leaves all other balances, the
allowances and the owner unchanged, and emits Transfer{None, Some(caller),
value}. -/
theorem C6_mint_amended (s : Wasmerc20) (c v : Nat) :
    (c ≠ s.owner → mint s c v = some (Except.error Error.IllegalManager, s, [])) ∧
    (c = s.owner → s.total_supply + v < M → balance_of s c + v < M →
      ∃ s1, mint s c v = some (Except.ok (), s1, [Event.Transfer none (some c) v]) ∧
        s1.total_supply = s.total_supply + v ∧
        balance_of s1 c = balance_of s c + v ∧
        (∀ a, a ≠ c → balance_of s1 a = balance_of s a) ∧
        s1.approval = s.approval ∧ s1.owner = s.owner) := by
  constructor
  · intro hc
    simp [mint, hc]
  · intro hc hM hB
    refine ⟨_, mint_ok_eq s c v hc hM hB, rfl, ?_, ?_, rfl, rfl⟩
    · show mget (minsert s.balances c (balance_of s c + v)) c = balance_of s c + v
      exact mget_minsert_self ..
    · intro a ha
      show mget (minsert s.balances c (balance_of s c + v)) a = mget s.balances a
      exact mget_minsert_ne _ _ _ _ ha

/-- Witness for the amended C6: on the state built by new(5), a mint of 7 by
the non-owner 1 fails with IllegalManager, and a mint of 7 by the owner 0
succeeds with the stated effects. -/
theorem C6_mint_amended_witness :
    (1 ≠ (new 0 5).1.owner ∧
      mint (new 0 5).1 1 7 = some (Except.error Error.IllegalManager, (new 0 5).1, [])) ∧
    (0 = (new 0 5).1.owner ∧ (new 0 5).1.total_supply + 7 < M ∧
      balance_of (new 0 5).1 0 + 7 < M ∧
      ∃ s1, mint (new 0 5).1 0 7
          = some (Except.ok (), s1, [Event.Transfer none (some 0) 7]) ∧
        s1.total_supply = (new 0 5).1.total_supply + 7 ∧
        balance_of s1 0 = balance_of (new 0 5).1 0 + 7 ∧
        (∀ a, a ≠ 0 → balance_of s1 a = balance_of (new 0 5).1 a) ∧
        s1.approval = (new 0 5).1.approval ∧ s1.owner = (new 0 5).1.owner) := by
  have hne : (1 : Nat) ≠ (new 0 5).1.owner := by decide
  have hM : (new 0 5).1.total_supply + 7 < M := by
    show (5 : Nat) + 7 < M
    norm_num [M]
  have hB : balance_of (new 0 5).1 0 + 7 < M := by
    show (5 : Nat) + 7 < M
    norm_num [M]
  exact ⟨⟨hne, (C6_mint_amended (new 0 5).1 1 7).1 hne⟩,
         ⟨rfl, hM, hB, (C6_mint_amended (new 0 5).1 0 7).2 rfl hM hB⟩⟩

/-- C7: a self-transfer with sufficient balance succeeds through the ordinary
transfer code path (the shared _transfer primitive), leaves every balance,
the total supply, the allowances and the owner unchanged, and still emits the
Transfer{Some(caller), Some(caller), value} event. -/
theorem C7_self_transfer (s : Wasmerc20) (c v : Nat)
    (hv : v ≤ balance_of s c) (hM : balance_of s c < M) :
    ∃ s1, transfer s c c v
        = some (Except.ok (), s1, [Event.Transfer (some c) (some c) v]) ∧
      (∀ a, balance_of s1 a = balance_of s a) ∧
      s1.total_supply = s.total_supply ∧ s1.approval = s.approval ∧ s1.owner = s.owner := by
  have hfit : mget (minsert s.balances c (balance_of s c - v)) c + v < M := by
    rw [mget_minsert_self]
    omega
  refine ⟨_, transfer_ok_eq s c c v hv hfit, ?_, rfl, rfl, rfl⟩
  intro a
  have hv2 : v ≤ mget s.balances c := hv
  have h := mget_double_insert s.balances c c a v hv2
  show mget (minsert (minsert s.balances c (mget s.balances c - v)) c (mget (minsert s.balances c (mget s.balances c - v)) c + v)) a = balance_of s a
  rw [h]
  show mget s.balances a - (if a = c then v else 0) + (if a = c then v else 0) = mget s.balances a
  split_ifs with h1
  · subst h1
    omega
  · omega

/-- Witness for C7: account 0 self-transfers its whole balance of 5 in the
state built by new(5); the call succeeds, emits the event and changes no
balance. -/
theorem C7_self_transfer_witness :
    (5 ≤ balance_of (new 0 5).1 0 ∧ balance_of (new 0 5).1 0 < M) ∧
    ∃ s1, transfer (new 0 5).1 0 0 5
        = some (Except.ok (), s1, [Event.Transfer (some 0) (some 0) 5]) ∧
      (∀ a, balance_of s1 a = balance_of (new 0 5).1 a) ∧
      s1.total_supply = (new 0 5).1.total_supply ∧
      s1.approval = (new 0 5).1.approval ∧ s1.owner = (new 0 5).1.owner := by
  have h1 : 5 ≤ balance_of (new 0 5).1 0 := by decide
  have h2 : balance_of (new 0 5).1 0 < M := by
    show (5 : Nat) < M
    norm_num [M]
  exact ⟨⟨h1, h2⟩, C7_self_transfer (new 0 5).1 0 5 h1 h2⟩

/-- C8: approve always succeeds, overwrites the allowance of (caller,
spender) with exactly value (replacing any prior value, including reducing
or zeroing it), changes nothing else, emits the Approval event, and calling
it twice with the same (spender, value) yields the same final allowance as
calling it once. -/
theorem C8_approve_overwrite_idempotent (s : Wasmerc20) (c d v : Nat) :
    (∃ s1, approve s c d v = some (Except.ok (), s1, [Event.Approval c d v]) ∧
      approval_of s1 c d = v ∧
      (∀ o p : AccountId, ¬ (o = c ∧ p = d) → approval_of s1 o p = approval_of s o p) ∧
      s1.balances = s.balances ∧ s1.total_supply = s.total_supply ∧ s1.owner = s.owner) ∧
    (∀ (s1 s2 : Wasmerc20) (ev1 ev2 : List Event),
      approve s c d v = some (Except.ok (), s1, ev1) →
      approve s1 c d v = some (Except.ok (), s2, ev2) →
      approval_of s2 c d = approval_of s1 c d) := by
  constructor
  · refine ⟨_, approve_eq s c d v, ?_, ?_, rfl, rfl, rfl⟩
    · show mget (minsert s.approval (c, d) v) (c, d) = v
      exact mget_minsert_self ..
    · intro o p hop
      have hne : ((o, p) : AccountId × AccountId) ≠ (c, d) := by
        simp only [ne_eq, Prod.mk.injEq]
        tauto
      show mget (minsert s.approval (c, d) v) (o, p) = mget s.approval (o, p)
      exact mget_minsert_ne _ _ _ _ hne
  · intro s1 s2 ev1 ev2 h1 h2
    rw [approve_eq] at h1 h2
    simp only [Option.some.injEq, Prod.mk.injEq] at h1 h2
    obtain ⟨-, hX1, -⟩ := h1
    obtain ⟨-, hX2, -⟩ := h2
    rw [← hX2, ← hX1]
    show mget (minsert (minsert s.approval (c, d) v) (c, d) v) (c, d)
      = mget (minsert s.approval (c, d) v) (c, d)
    rw [mget_minsert_self, mget_minsert_self]

/-- Witness for C8: approving 2 for spender 1 twice from the state built by
new(5) produces the same state and the same final allowance. -/
theorem C8_approve_overwrite_idempotent_witness :
    approve (new 0 5).1 0 1 2
      = some (Except.ok (), (⟨5, [(0, 5)], [((0, 1), 2)], 0⟩ : Wasmerc20),
          [Event.Approval 0 1 2]) ∧
    approve (⟨5, [(0, 5)], [((0, 1), 2)], 0⟩ : Wasmerc20) 0 1 2
      = some (Except.ok (), (⟨5, [(0, 5)], [((0, 1), 2)], 0⟩ : Wasmerc20),
          [Event.Approval 0 1 2]) ∧
    approval_of (⟨5, [(0, 5)], [((0, 1), 2)], 0⟩ : Wasmerc20) 0 1
      = approval_of (⟨5, [(0, 5)], [((0, 1), 2)], 0⟩ : Wasmerc20) 0 1 := by
  have h1 : approve (new 0 5).1 0 1 2
      = some (Except.ok (), (⟨5, [(0, 5)], [((0, 1), 2)], 0⟩ : Wasmerc20),
          [Event.Approval 0 1 2]) := rfl
  have h2 : approve (⟨5, [(0, 5)], [((0, 1), 2)], 0⟩ : Wasmerc20) 0 1 2
      = some (Except.ok (), (⟨5, [(0, 5)], [((0, 1), 2)], 0⟩ : Wasmerc20),
          [Event.Approval 0 1 2]) := rfl
  exact ⟨h1, h2, (C8_approve_overwrite_idempotent (new 0 5).1 0 1 2).2 _ _ _ _ h1 h2⟩

/-- C9: the primitive _transfer performs no balance-sufficiency check of its
own — invoked with an uncovered debit it traps instead of reporting the
business error — while each public call site (transfer, transfer_from, burn)
invokes it only after validating that the debited balance is at least value,
so on every successful call the debit was covered and the checked
subtraction never underflows (subB returns the exact difference; all stored
balances are naturals, never negative). -/
theorem C9_transfer_primitive_guarded :
    (∀ (s : Wasmerc20) (f : Nat) (dest : Option Nat) (v : Nat),
      balance_of s f < v → _transfer s (some f) dest v = none) ∧
    (∀ (s : Wasmerc20) (f v : Nat), v ≤ balance_of s f →
      subB (balance_of s f) v = some (balance_of s f - v)) ∧
    (∀ (s : Wasmerc20) (c d v : Nat) (s1 : Wasmerc20) (ev : List Event),
      transfer s c d v = some (Except.ok (), s1, ev) → v ≤ balance_of s c) ∧
    (∀ (s : Wasmerc20) (c f d v : Nat) (s1 : Wasmerc20) (ev : List Event),
      transfer_from s c f d v = some (Except.ok (), s1, ev) → v ≤ balance_of s f) ∧
    (∀ (s : Wasmerc20) (c v : Nat) (s1 : Wasmerc20) (ev : List Event),
      burn s c v = some (Except.ok (), s1, ev) → v ≤ balance_of s c) := by
  refine ⟨?_, ?_, ?_, ?_, ?_⟩
  · exact fun s f dest v h => _transfer_debit_insufficient s f dest v h
  · intro s f v h
    simp [subB, h]
  · intro s c d v s1 ev h
    exact (transfer_ok s c d v s1 ev h).1
  · intro s c f d v s1 ev h
    exact (transfer_from_ok s c f d v s1 ev h).2.1
  · intro s c v s1 ev h
    exact (burn_ok s c v s1 ev h).2.1

/-- Witness for C9: calling the primitive directly with an uncovered debit of
7 from the empty account 1 traps. -/
theorem C9_transfer_primitive_guarded_witness :
    balance_of (new 0 5).1 1 < 7 ∧
    _transfer (new 0 5).1 (some 1) (some 2) 7 = none := by
  have h : balance_of (new 0 5).1 1 < 7 := by decide
  exact ⟨h, C9_transfer_primitive_guarded.1 _ 1 (some 2) 7 h⟩

/-- C10: the degenerate delegated self-move transfer_from(from, from, value)
with sufficient allowance and balance succeeds, still consumes the allowance
of (from, caller) by exactly value, and leaves every balance and the total
supply unchanged. -/
theorem C10_delegated_self_move (s : Wasmerc20) (c f v : Nat)
    (ha : v ≤ approval_of s f c) (hb : v ≤ balance_of s f)
    (hM : balance_of s f < M) :
    ∃ s1 ev, transfer_from s c f f v = some (Except.ok (), s1, ev) ∧
      approval_of s1 f c + v = approval_of s f c ∧
      (∀ a, balance_of s1 a = balance_of s a) ∧
      s1.total_supply = s.total_supply := by
  have hfit : mget (minsert s.balances f (balance_of s f - v)) f + v < M := by
    rw [mget_minsert_self]
    omega
  have heq := transfer_from_ok_eq s c f f v ha hb hfit
  obtain ⟨-, -, happ, -, hbal, -, htot, -, -⟩ := transfer_from_ok s c f f v _ _ heq
  refine ⟨_, _, heq, happ, ?_, htot⟩
  intro a
  rw [hbal a]
  split_ifs with h1
  · subst h1
    omega
  · omega

/-- Witness for C10: the delegated self-move of 3 from account 0 by spender 2
out of an allowance of 4 succeeds, consumes the allowance and moves nothing. -/
theorem C10_delegated_self_move_witness :
    (3 ≤ approval_of (⟨5, [(0, 5)], [((0, 2), 4)], 0⟩ : Wasmerc20) 0 2 ∧
     3 ≤ balance_of (⟨5, [(0, 5)], [((0, 2), 4)], 0⟩ : Wasmerc20) 0 ∧
     balance_of (⟨5, [(0, 5)], [((0, 2), 4)], 0⟩ : Wasmerc20) 0 < M) ∧
    ∃ s1 ev, transfer_from (⟨5, [(0, 5)], [((0, 2), 4)], 0⟩ : Wasmerc20) 2 0 0 3
        = some (Except.ok (), s1, ev) ∧
      approval_of s1 0 2 + 3
        = approval_of (⟨5, [(0, 5)], [((0, 2), 4)], 0⟩ : Wasmerc20) 0 2 ∧
      (∀ a, balance_of s1 a = balance_of (⟨5, [(0, 5)], [((0, 2), 4)], 0⟩ : Wasmerc20) a) ∧
      s1.total_supply = (⟨5, [(0, 5)], [((0, 2), 4)], 0⟩ : Wasmerc20).total_supply := by
  have h1 : 3 ≤ approval_of (⟨5, [(0, 5)], [((0, 2), 4)], 0⟩ : Wasmerc20) 0 2 := by decide
  have h2 : 3 ≤ balance_of (⟨5, [(0, 5)], [((0, 2), 4)], 0⟩ : Wasmerc20) 0 := by decide
  have h3 : balance_of (⟨5, [(0, 5)], [((0, 2), 4)], 0⟩ : Wasmerc20) 0 < M := by
    show (5 : Nat) < M
    norm_num [M]
  exact ⟨⟨h1, h2, h3⟩, C10_delegated_self_move _ 2 0 3 h1 h2 h3⟩

end Erc20
